import Mathlib

/-!
Shallow embedding of the Buddhabrot renderer (`src/main.rs`).

Floating-point (`f64`) arithmetic is modelled by exact rationals `ℚ`.
Rust's `as usize` cast on a non-negative finite float truncates toward
zero, which on non-negative values is the floor; on values out of range
it saturates, and `NaN` casts to `0` — these cast semantics are spelled
out where used.  The `AtomicU16` histogram counters wrap modulo `2^16`
(`fetch_add` is wrapping), modelled with `% 65536` on `ℕ`.

The source fixes the grid size, the iteration caps of the three
channels, and the viewport as compile-time constants; the definitions
below keep those constant values, and the trajectory/accumulation loop
is additionally stated with the caps as parameters (`itR itG itB`)
instantiated to the source constants by `generateSample`, so that
properties the spec states for arbitrary cap configurations
(e.g. R=50, G=40, B=30) can be expressed.
-/

namespace Buddhabrot

/-- `const SCREEN_WIDTH: usize = 2560 * 1;` -/
def SCREEN_WIDTH : ℕ := 2560 * 1

/-- `const SCREEN_HEIGHT: usize = 1440 * 1;` -/
def SCREEN_HEIGHT : ℕ := 1440 * 1

/-- `const ITERATIONS_R: usize = 20000;` -/
def ITERATIONS_R : ℕ := 20000

/-- `const ITERATIONS_G: usize = 10000;` -/
def ITERATIONS_G : ℕ := 10000

/-- `const ITERATIONS_B: usize = 5000;` -/
def ITERATIONS_B : ℕ := 5000

/-- `const COMPLEX_PLANE_VIEW_WIDTH: f64 = 4.3;` -/
def COMPLEX_PLANE_VIEW_WIDTH : ℚ := 43 / 10

/-- `const COMPLEX_PLANE_VIEW_HEIGHT: f64 = (SCREEN_HEIGHT/SCREEN_WIDTH)*WIDTH;` -/
def COMPLEX_PLANE_VIEW_HEIGHT : ℚ :=
  ((SCREEN_HEIGHT : ℚ) / (SCREEN_WIDTH : ℚ)) * COMPLEX_PLANE_VIEW_WIDTH

/-- `const PAN_RIGHT: f64 = 0.5;` -/
def PAN_RIGHT : ℚ := 1 / 2

/-- `struct Complex { re: f64, im: f64 }`, over exact rationals. -/
structure Complex where
  re : ℚ
  im : ℚ
deriving DecidableEq, Repr

/-- `const TOP_LEFT: Complex` -/
def TOP_LEFT : Complex :=
  { re := COMPLEX_PLANE_VIEW_WIDTH / (-2) - PAN_RIGHT
    im := COMPLEX_PLANE_VIEW_HEIGHT / 2 }

/-- `const PIXEL_WIDTH: f64 = COMPLEX_PLANE_VIEW_WIDTH / SCREEN_WIDTH;` -/
def PIXEL_WIDTH : ℚ := COMPLEX_PLANE_VIEW_WIDTH / (SCREEN_WIDTH : ℚ)

/-- `const PIXEL_HEIGHT: f64 = PIXEL_WIDTH;` -/
def PIXEL_HEIGHT : ℚ := PIXEL_WIDTH

/-- `struct Pixel { x: usize, y: usize }` -/
structure Pixel where
  x : ℕ
  y : ℕ
deriving DecidableEq, Repr

/-- `fn get_pixel(c: &Complex) -> Option<Pixel>`: the viewport test is the
source's four-clause disjunction (closed rectangle — `<` / `>` on both
sides); the `as usize` casts truncate the non-negative quotients toward
zero, i.e. take the floor. -/
def get_pixel (c : Complex) : Option Pixel :=
  if c.re < TOP_LEFT.re ∨ c.re > TOP_LEFT.re + COMPLEX_PLANE_VIEW_WIDTH ∨
      c.im > TOP_LEFT.im ∨ c.im < TOP_LEFT.im - COMPLEX_PLANE_VIEW_HEIGHT then
    none
  else
    some { x := (⌊(c.re - TOP_LEFT.re) / PIXEL_WIDTH⌋).toNat
           y := (⌊(TOP_LEFT.im - c.im) / PIXEL_HEIGHT⌋).toNat }

/-- `Complex::add` -/
def Complex.add (a b : Complex) : Complex :=
  { re := a.re + b.re, im := a.im + b.im }

/-- `Complex::mul` -/
def Complex.mul (a b : Complex) : Complex :=
  { re := a.re * b.re - a.im * b.im
    im := a.re * b.im + a.im * b.re }

/-- `Complex::square` -/
def Complex.square (a : Complex) : Complex := a.mul a

/-- `Complex::abssq` -/
def Complex.abssq (a : Complex) : ℚ := a.re * a.re + a.im * a.im

/-- `z` after `n` iterations of `z = z.square().add(&c)` starting from
`Complex { re: 0.0, im: 0.0 }`. -/
def zIter (c : Complex) : ℕ → Complex
  | 0 => { re := 0, im := 0 }
  | n + 1 => ((zIter c n).square).add c

/-- `AtomicU16` counters live in `[0, 2^16)`. -/
def U16_MOD : ℕ := 65536

/-- A histogram channel (`type BuddhabrotChannel = Vec<Vec<AtomicU16>>`),
as a total function from row `y` and column `x` to the counter value. -/
abbrev BuddhabrotChannel : Type := ℕ → ℕ → ℕ

/-- `grid[pixel.y][pixel.x].fetch_add(1, Relaxed)`: `AtomicU16::fetch_add`
is a wrapping increment modulo `2^16` of the addressed counter. -/
def fetch_add (g : BuddhabrotChannel) (p : Pixel) : BuddhabrotChannel :=
  fun y x => if y = p.y ∧ x = p.x then (g y x + 1) % U16_MOD else g y x

/-- One recording loop of `generate`
(`for v in points { if let Some(pixel) = get_pixel(&v) { ..fetch_add.. } }`):
each point that maps into the viewport adds one wrapping increment; points
mapping outside are silently dropped. -/
def addVisited (points : List Complex) (g : BuddhabrotChannel) : BuddhabrotChannel :=
  points.foldl
    (fun g v =>
      match get_pixel v with
      | some p => fetch_add g p
      | none => g)
    g

/-- The three shared histogram channels of `generate_channel`. -/
structure Grids where
  r : BuddhabrotChannel
  g : BuddhabrotChannel
  b : BuddhabrotChannel

/-- The all-zero grids (`AtomicU16::new(0)` for every cell). -/
def zeroGrids : Grids :=
  { r := fun _ _ => 0, g := fun _ _ => 0, b := fun _ _ => 0 }

/-- The escape branch of `generate`'s sample loop (`if z.abssq() > 4.0`):
red receives every visited point, green the first `itG` visited points
when `should_green` still holds, blue the first `itB` visited points when
`should_blue` still holds. -/
def commit (itG itB : ℕ) (visited : List Complex) (sg sb : Bool) (gs : Grids) : Grids :=
  let gs1 : Grids := { gs with r := addVisited visited gs.r }
  let gs2 : Grids :=
    if sg then { gs1 with g := addVisited (visited.take itG) gs1.g } else gs1
  if sb then { gs2 with b := addVisited (visited.take itB) gs2.b } else gs2

/-- The inner loop `for i in 0..ITERATIONS_R { ... }` of `generate` for one
sample `c`, with the three iteration caps as parameters (the source
instantiates them with the constants — see `generateSample`).  `z`,
`visited`, `sg`/`sb` (`should_green`/`should_blue`) and the grids are the
loop's mutable state, `i` the loop counter and `fuel` the remaining
iterations (`itR - i`). -/
def genLoop (itG itB : ℕ) (c : Complex) (z : Complex) (visited : List Complex)
    (sg sb : Bool) (i : ℕ) : ℕ → Grids → Grids
  | 0, gs => gs
  | fuel + 1, gs =>
    let sg' := if i > itG then false else sg
    let sb' := if i > itB then false else sb
    let z' := (z.square).add c
    let visited' := visited ++ [z']
    if z'.abssq > 4 then commit itG itB visited' sg' sb' gs
    else genLoop itG itB c z' visited' sg' sb' (i + 1) fuel gs

/-- The grid-free part of the same loop: `none` when the trajectory never
escapes within the remaining fuel (the sample is discarded), and
`some (visited, sg, sb)` — the visited list and channel flags at the
moment of escape — otherwise. -/
def genLoopOut (itG itB : ℕ) (c : Complex) (z : Complex) (visited : List Complex)
    (sg sb : Bool) (i : ℕ) : ℕ → Option (List Complex × Bool × Bool)
  | 0 => none
  | fuel + 1 =>
    let sg' := if i > itG then false else sg
    let sb' := if i > itB then false else sb
    let z' := (z.square).add c
    let visited' := visited ++ [z']
    if z'.abssq > 4 then some (visited', sg', sb')
    else genLoopOut itG itB c z' visited' sg' sb' (i + 1) fuel

/-- The escape outcome of one sample `c` under caps `itR/itG/itB`. -/
def outcome (itR itG itB : ℕ) (c : Complex) : Option (List Complex × Bool × Bool) :=
  genLoopOut itG itB c { re := 0, im := 0 } [] true true 0 itR

/-- One sample's full effect on the grids: the body of `generate`'s
sample loop (minus the progress print), caps as parameters. -/
def sampleStep (itR itG itB : ℕ) (c : Complex) (gs : Grids) : Grids :=
  genLoop itG itB c { re := 0, im := 0 } [] true true 0 itR gs

/-- `generate`'s per-sample effect at the source's constant caps. -/
def generateSample (c : Complex) (gs : Grids) : Grids :=
  sampleStep ITERATIONS_R ITERATIONS_G ITERATIONS_B c gs

/-- The maximum scan of `Normalize::normalize`
(`for y .. for x .. if value > max { max = value }`), with the grid
dimensions as parameters (the source uses `SCREEN_HEIGHT`/`SCREEN_WIDTH`). -/
def chMax (h w : ℕ) (g : BuddhabrotChannel) : ℕ :=
  (List.range h).foldl
    (fun m y => (List.range w).foldl (fun m x => if g y x > m then g y x else m) m)
    0

/-- `((value as f64 / max as f64) * 255.0) as u16` of `Normalize::normalize`.
For `max > 0` the quotient is exact in `ℚ` and the `as u16` cast truncates
toward zero, saturating at `65535`.  For `max = 0` the Rust division gives
`NaN` when `value = 0` (cast to `0`) and `+∞` when `value > 0` (cast to
`65535`); only `value = 0` is reachable when `max` is the scanned maximum. -/
def normValue (value mx : ℕ) : ℕ :=
  if mx = 0 then (if value = 0 then 0 else 65535)
  else min (⌊((value : ℚ) / (mx : ℚ)) * 255⌋).toNat 65535

/-- `Normalize::normalize` with the grid dimensions as parameters: every
cell of the `h × w` region is rescaled against the scanned maximum. -/
def normalize (h w : ℕ) (g : BuddhabrotChannel) : BuddhabrotChannel :=
  fun y x => if y < h ∧ x < w then normValue (g y x) (chMax h w g) else g y x

/-- One `fetch_add(1, Relaxed)` on a single `AtomicU16` counter. -/
def wrapIncr (v : ℕ) : ℕ := (v + 1) % U16_MOD

/-- A schedule is the interleaving order in which workers' increments land
on one fixed counter: entry `wk` means worker `wk`'s increment is next.
Because `fetch_add` is atomic, every concurrent execution of the workers
is equivalent to running some schedule sequentially. -/
def runSchedule (s : List ℕ) (v : ℕ) : ℕ :=
  s.foldl (fun acc _ => wrapIncr acc) v

/-- How many points of `points` map to the pixel at column `x`, row `y`. -/
def hitCount (points : List Complex) (y x : ℕ) : ℕ :=
  points.countP (fun v => decide (get_pixel v = some { x := x, y := y }))

/-- Increments the red channel receives at `(y, x)` from one sample. -/
def rHits (itR itG itB : ℕ) (c : Complex) (y x : ℕ) : ℕ :=
  match outcome itR itG itB c with
  | none => 0
  | some (v, _, _) => hitCount v y x

/-- Increments the green channel receives at `(y, x)` from one sample. -/
def gHits (itR itG itB : ℕ) (c : Complex) (y x : ℕ) : ℕ :=
  match outcome itR itG itB c with
  | none => 0
  | some (v, sg, _) => if sg then hitCount (v.take itG) y x else 0

/-- Increments the blue channel receives at `(y, x)` from one sample. -/
def bHits (itR itG itB : ℕ) (c : Complex) (y x : ℕ) : ℕ :=
  match outcome itR itG itB c with
  | none => 0
  | some (v, _, sb) => if sb then hitCount (v.take itB) y x else 0

/-- An accumulation pass over a list of samples (the samples processed by
all workers, in any order — increments commute, see C5). -/
def pass (itR itG itB : ℕ) (samples : List Complex) (gs : Grids) : Grids :=
  samples.foldl (fun gs c => sampleStep itR itG itB c gs) gs

/-- Total red increments at `(y, x)` over a pass, before wrapping. -/
def rTotal (itR itG itB : ℕ) (samples : List Complex) (y x : ℕ) : ℕ :=
  (samples.map (fun c => rHits itR itG itB c y x)).sum

/-- Total green increments at `(y, x)` over a pass, before wrapping. -/
def gTotal (itR itG itB : ℕ) (samples : List Complex) (y x : ℕ) : ℕ :=
  (samples.map (fun c => gHits itR itG itB c y x)).sum

/-- Total blue increments at `(y, x)` over a pass, before wrapping. -/
def bTotal (itR itG itB : ℕ) (samples : List Complex) (y x : ℕ) : ℕ :=
  (samples.map (fun c => bHits itR itG itB c y x)).sum

/-- `genLoop` only touches the grids in its escape branch, so it factors
through `genLoopOut` followed by `commit`. -/
theorem genLoop_eq_outcome (itG itB : ℕ) (c : Complex) :
    ∀ (fuel : ℕ) (z : Complex) (visited : List Complex) (sg sb : Bool) (i : ℕ) (gs : Grids),
      genLoop itG itB c z visited sg sb i fuel gs =
        match genLoopOut itG itB c z visited sg sb i fuel with
        | none => gs
        | some (v, sg', sb') => commit itG itB v sg' sb' gs := by
  intro fuel
  induction fuel with
  | zero => intro z visited sg sb i gs; rfl
  | succ fuel ih =>
    intro z visited sg sb i gs
    rw [genLoop, genLoopOut]
    by_cases hesc : (((z.square).add c).abssq > 4)
    · simp only [if_pos hesc]
    · simp only [if_neg hesc, ih]

/-- Starting from `c = 0` the map `z ← z² + c` stays at the origin. -/
theorem zIter_origin (n : ℕ) : zIter { re := 0, im := 0 } n = { re := 0, im := 0 } := by
  induction n with
  | zero => rfl
  | succ n ih => simp [zIter, ih, Complex.square, Complex.mul, Complex.add]

/-- If every iterate reachable with the remaining fuel has squared
magnitude at most `4`, the loop runs out of fuel without escaping. -/
theorem genLoopOut_none (itG itB : ℕ) (c : Complex) :
    ∀ (fuel i : ℕ) (visited : List Complex) (sg sb : Bool),
      (∀ m, i ≤ m → m < i + fuel → (zIter c (m + 1)).abssq ≤ 4) →
      genLoopOut itG itB c (zIter c i) visited sg sb i fuel = none := by
  intro fuel
  induction fuel with
  | zero => intro i visited sg sb _; rfl
  | succ fuel ih =>
    intro i visited sg sb h
    rw [genLoopOut]
    have h0 : ¬(((((zIter c i).square).add c).abssq > 4)) :=
      not_lt.mpr (h i le_rfl (by omega))
    rw [if_neg h0]
    exact ih (i + 1) _ _ _ (fun m hm hm2 => h m (by omega) (by omega))

/-- Flag invariant of the sample loop: at escape, `should_green` (resp.
`should_blue`) holds exactly when the 1-based escape iteration count — the
length of the visited list — is at most the cap plus one, because the flag
is only cleared once the 0-based loop counter strictly exceeds the cap. -/
theorem genLoopOut_flags (itG itB : ℕ) (c : Complex) :
    ∀ (fuel i : ℕ) (z : Complex) (visited : List Complex) (sg sb : Bool)
      (v : List Complex) (sg' sb' : Bool),
      (sg = true ↔ i ≤ itG + 1) → (sb = true ↔ i ≤ itB + 1) → visited.length = i →
      genLoopOut itG itB c z visited sg sb i fuel = some (v, sg', sb') →
      (sg' = true ↔ v.length ≤ itG + 1) ∧ (sb' = true ↔ v.length ≤ itB + 1) ∧
        1 ≤ v.length := by
  intro fuel
  induction fuel with
  | zero =>
    intro i z visited sg sb v sg' sb' _ _ _ h
    exact absurd h (by rw [genLoopOut]; simp)
  | succ fuel ih =>
    intro i z visited sg sb v sg' sb' hsg hsb hlen h
    rw [genLoopOut] at h
    by_cases hesc : (((z.square).add c).abssq > 4)
    · rw [if_pos hesc] at h
      simp only [Option.some.injEq, Prod.mk.injEq] at h
      obtain ⟨hv, hg, hb⟩ := h
      subst hv
      refine ⟨?_, ?_, by simp⟩
      · rw [← hg]
        by_cases hi : i > itG
        · simp only [if_pos hi, List.length_append, List.length_cons,
            List.length_nil, hlen]
          constructor
          · intro hfalse; exact absurd hfalse (by simp)
          · intro hle; omega
        · simp only [if_neg hi, List.length_append, List.length_cons,
            List.length_nil, hlen, hsg]
          omega
      · rw [← hb]
        by_cases hi : i > itB
        · simp only [if_pos hi, List.length_append, List.length_cons,
            List.length_nil, hlen]
          constructor
          · intro hfalse; exact absurd hfalse (by simp)
          · intro hle; omega
        · simp only [if_neg hi, List.length_append, List.length_cons,
            List.length_nil, hlen, hsb]
          omega
    · rw [if_neg hesc] at h
      refine ih (i + 1) _ _ _ _ v sg' sb' ?_ ?_ (by simp [hlen]) h
      · by_cases hi : i > itG
        · simp only [if_pos hi]
          constructor
          · intro hfalse; exact absurd hfalse (by simp)
          · intro hle; omega
        · rw [if_neg hi, hsg]; omega
      · by_cases hi : i > itB
        · simp only [if_pos hi]
          constructor
          · intro hfalse; exact absurd hfalse (by simp)
          · intro hle; omega
        · rw [if_neg hi, hsb]; omega

/-- One unfolding of the sample loop, for evaluating concrete samples. -/
theorem genLoopOut_step (itG itB : ℕ) (c z : Complex) (visited : List Complex)
    (sg sb : Bool) (i fuel : ℕ) :
    genLoopOut itG itB c z visited sg sb i (fuel + 1) =
      if ((z.square).add c).abssq > 4 then
        some (visited ++ [(z.square).add c],
          if i > itG then false else sg, if i > itB then false else sb)
      else
        genLoopOut itG itB c ((z.square).add c) (visited ++ [(z.square).add c])
          (if i > itG then false else sg) (if i > itB then false else sb) (i + 1) fuel := rfl

/-- A scan whose step never decreases the accumulator ends at or above its
initial value. -/
theorem le_foldl_acc (step : ℕ → ℕ → ℕ) (hstep : ∀ m a, m ≤ step m a) :
    ∀ (l : List ℕ) (m : ℕ), m ≤ l.foldl step m := by
  intro l
  induction l with
  | nil => intro m; exact le_rfl
  | cons a t ih => intro m; exact le_trans (hstep m a) (ih (step m a))

/-- If processing the listed element `y` pushes the accumulator to at
least `t`, the whole scan ends at or above `t`. -/
theorem le_foldl_of_mem (step : ℕ → ℕ → ℕ) (hstep : ∀ m a, m ≤ step m a)
    (t y : ℕ) (hy : ∀ m, t ≤ step m y) :
    ∀ (l : List ℕ) (m : ℕ), y ∈ l → t ≤ l.foldl step m := by
  intro l
  induction l with
  | nil => intro m hmem; cases hmem
  | cons a s ih =>
    intro m hmem
    rcases List.mem_cons.mp hmem with h1 | h2
    · rw [List.foldl_cons, ← h1]
      exact le_trans (hy m) (le_foldl_acc step hstep s (step m y))
    · exact ih (step m a) h2

/-- If every listed element leaves the accumulator unchanged, the scan
returns its initial value. -/
theorem foldl_fixed (step : ℕ → ℕ → ℕ) :
    ∀ (l : List ℕ) (m : ℕ), (∀ a ∈ l, ∀ acc, step acc a = acc) → l.foldl step m = m := by
  intro l
  induction l with
  | nil => intro m _; rfl
  | cons a t ih =>
    intro m h
    rw [List.foldl_cons, h a (by simp)]
    exact ih m (fun a' ha' acc => h a' (by simp [ha']) acc)

/-- The scanned maximum bounds every in-range counter. -/
theorem chMax_ge (h w : ℕ) (g : BuddhabrotChannel) (y x : ℕ)
    (hy : y < h) (hx : x < w) : g y x ≤ chMax h w g := by
  rw [chMax]
  refine le_foldl_of_mem _ ?_ (g y x) y ?_ (List.range h) 0 (List.mem_range.mpr hy)
  · intro m a
    exact le_foldl_acc _ (fun m' a' => by split <;> omega) (List.range w) m
  · intro m
    refine le_foldl_of_mem _ (fun m' a' => by split <;> omega)
      (g y x) x ?_ (List.range w) m (List.mem_range.mpr hx)
    intro m'
    dsimp only; split <;> omega

/-- An all-zero channel scans to maximum `0`. -/
theorem chMax_zero (h w : ℕ) (g : BuddhabrotChannel)
    (hz : ∀ y x, y < h → x < w → g y x = 0) : chMax h w g = 0 := by
  rw [chMax]
  refine foldl_fixed _ (List.range h) 0 (fun y hy acc => ?_)
  refine foldl_fixed _ (List.range w) acc (fun x hx acc' => ?_)
  dsimp only
  rw [hz y x (List.mem_range.mp hy) (List.mem_range.mp hx)]
  simp

/-- A run of wrapping increments starting below the modulus lands on the
wrapped total, whatever the schedule entries are. -/
theorem runSchedule_eq (s : List ℕ) : ∀ v : ℕ, v < U16_MOD →
    runSchedule s v = (v + s.length) % U16_MOD := by
  induction s with
  | nil => intro v hv; simp [runSchedule, Nat.mod_eq_of_lt hv]
  | cons a t ih =>
    intro v hv
    have hstep : runSchedule (a :: t) v = runSchedule t (wrapIncr v) := rfl
    rw [hstep, ih (wrapIncr v) (Nat.mod_lt _ (by norm_num [U16_MOD])), wrapIncr,
      Nat.mod_add_mod, List.length_cons]
    congr 1
    omega

/-- A schedule in which each of `N` workers appears exactly `K` times has
length `N · K`. -/
theorem schedule_length (N K : ℕ) (s : List ℕ)
    (hmem : ∀ wk ∈ s, wk < N) (hcnt : ∀ wk, wk < N → s.count wk = K) :
    s.length = N * K := by
  have h1 : ∀ (l : List ℕ), (∀ wk ∈ l, wk < N) →
      l.length = ∑ wk in Finset.range N, l.count wk := by
    intro l
    induction l with
    | nil => intro _; simp
    | cons a t ih =>
      intro hm
      have ha : a ∈ Finset.range N := Finset.mem_range.mpr (hm a (by simp))
      have hc : ∀ wk, (a :: t).count wk = t.count wk + if a = wk then 1 else 0 := by
        intro wk
        rw [List.count_cons]
        congr 1
        simp [beq_iff_eq]
      rw [List.length_cons, ih (fun wk hk => hm wk (by simp [hk]))]
      simp only [hc, Finset.sum_add_distrib, Finset.sum_ite_eq, ha, if_pos]
  rw [h1 s hmem, Finset.sum_congr rfl (fun wk hwk => hcnt wk (Finset.mem_range.mp hwk))]
  simp [Finset.sum_const, Finset.card_range, mul_comm]

/-- Effect of one recording loop on one counter: it gains one wrapping
increment per recorded point that maps to that pixel. -/
theorem addVisited_apply (y x : ℕ) :
    ∀ (points : List Complex) (g : BuddhabrotChannel), g y x < U16_MOD →
      addVisited points g y x = (g y x + hitCount points y x) % U16_MOD := by
  intro points
  induction points with
  | nil => intro g hg; simp [addVisited, hitCount, Nat.mod_eq_of_lt hg]
  | cons v t ih =>
    intro g hg
    have hadd : addVisited (v :: t) g =
        addVisited t (match get_pixel v with | some p => fetch_add g p | none => g) := rfl
    have hcnt : hitCount (v :: t) y x =
        hitCount t y x + if get_pixel v = some { x := x, y := y } then 1 else 0 := by
      rw [hitCount, hitCount, List.countP_cons]
      simp
    rcases hgp : get_pixel v with _ | p
    · rw [hadd]
      simp only [hgp]
      rw [ih g hg, hcnt, hgp]
      simp
    · rw [hadd]
      simp only [hgp]
      by_cases hp : p = { x := x, y := y }
      · subst hp
        have hval : fetch_add g { x := x, y := y } y x = (g y x + 1) % U16_MOD := by
          rw [fetch_add]
          simp
        have hlt : fetch_add g { x := x, y := y } y x < U16_MOD := by
          rw [hval]; exact Nat.mod_lt _ (by norm_num [U16_MOD])
        have hif : (if get_pixel v = some { x := x, y := y } then 1 else 0) = 1 := by
          rw [hgp]; simp
        rw [ih _ hlt, hval, hcnt, hif]
        simp only [U16_MOD]
        omega
      · have hval : fetch_add g p y x = g y x := by
          rw [fetch_add]
          rw [if_neg]
          rintro ⟨hy2, hx2⟩
          exact hp (by cases p; simp_all)
        have hlt : fetch_add g p y x < U16_MOD := by rw [hval]; exact hg
        rw [ih _ hlt, hval, hcnt, hgp]
        rw [if_neg (by simp [hp])]
        simp



/-- `commit` updates the red channel with every visited point. -/
theorem commit_r (itG itB : ℕ) (visited : List Complex) (sg sb : Bool) (gs : Grids) :
    (commit itG itB visited sg sb gs).r = addVisited visited gs.r := by
  rw [commit]
  by_cases hsg : sg <;> by_cases hsb : sb <;> simp [hsg, hsb]

/-- `commit` updates the green channel with the first `itG` visited points
exactly when `should_green` holds. -/
theorem commit_g (itG itB : ℕ) (visited : List Complex) (sg sb : Bool) (gs : Grids) :
    (commit itG itB visited sg sb gs).g =
      if sg then addVisited (visited.take itG) gs.g else gs.g := by
  rw [commit]
  by_cases hsg : sg <;> by_cases hsb : sb <;> simp [hsg, hsb]

/-- `commit` updates the blue channel with the first `itB` visited points
exactly when `should_blue` holds. -/
theorem commit_b (itG itB : ℕ) (visited : List Complex) (sg sb : Bool) (gs : Grids) :
    (commit itG itB visited sg sb gs).b =
      if sb then addVisited (visited.take itB) gs.b else gs.b := by
  rw [commit]
  by_cases hsg : sg <;> by_cases hsb : sb <;> simp [hsg, hsb]

/-- One sample's effect on a red counter. -/
theorem sampleStep_r (itR itG itB : ℕ) (c : Complex) (gs : Grids) (y x : ℕ)
    (hg : gs.r y x < U16_MOD) :
    (sampleStep itR itG itB c gs).r y x =
      (gs.r y x + rHits itR itG itB c y x) % U16_MOD := by
  rw [sampleStep, genLoop_eq_outcome, rHits]
  rcases ho : outcome itR itG itB c with _ | ⟨v, sg, sb⟩ <;> rw [outcome] at ho <;> rw [ho]
  · simp [Nat.mod_eq_of_lt hg]
  · simp only []
    rw [commit_r, addVisited_apply y x v gs.r hg]

/-- One sample's effect on a green counter. -/
theorem sampleStep_g (itR itG itB : ℕ) (c : Complex) (gs : Grids) (y x : ℕ)
    (hg : gs.g y x < U16_MOD) :
    (sampleStep itR itG itB c gs).g y x =
      (gs.g y x + gHits itR itG itB c y x) % U16_MOD := by
  rw [sampleStep, genLoop_eq_outcome, gHits]
  rcases ho : outcome itR itG itB c with _ | ⟨v, sg, sb⟩ <;> rw [outcome] at ho <;> rw [ho]
  · simp [Nat.mod_eq_of_lt hg]
  · simp only []
    rw [commit_g]
    by_cases hsg : sg
    · rw [if_pos hsg, if_pos hsg, addVisited_apply y x _ gs.g hg]
    · rw [if_neg hsg, if_neg hsg, Nat.add_zero, Nat.mod_eq_of_lt hg]

/-- One sample's effect on a blue counter. -/
theorem sampleStep_b (itR itG itB : ℕ) (c : Complex) (gs : Grids) (y x : ℕ)
    (hg : gs.b y x < U16_MOD) :
    (sampleStep itR itG itB c gs).b y x =
      (gs.b y x + bHits itR itG itB c y x) % U16_MOD := by
  rw [sampleStep, genLoop_eq_outcome, bHits]
  rcases ho : outcome itR itG itB c with _ | ⟨v, sg, sb⟩ <;> rw [outcome] at ho <;> rw [ho]
  · simp [Nat.mod_eq_of_lt hg]
  · simp only []
    rw [commit_b]
    by_cases hsb : sb
    · rw [if_pos hsb, if_pos hsb, addVisited_apply y x _ gs.b hg]
    · rw [if_neg hsb, if_neg hsb, Nat.add_zero, Nat.mod_eq_of_lt hg]


/-- Effect of a whole pass on each counter: each channel's cell holds its
pre-wrap total modulo `2^16`. -/
theorem pass_apply (itR itG itB : ℕ) (y x : ℕ) :
    ∀ (samples : List Complex) (gs : Grids),
      gs.r y x < U16_MOD → gs.g y x < U16_MOD → gs.b y x < U16_MOD →
      (pass itR itG itB samples gs).r y x =
          (gs.r y x + rTotal itR itG itB samples y x) % U16_MOD ∧
        (pass itR itG itB samples gs).g y x =
          (gs.g y x + gTotal itR itG itB samples y x) % U16_MOD ∧
        (pass itR itG itB samples gs).b y x =
          (gs.b y x + bTotal itR itG itB samples y x) % U16_MOD := by
  intro samples
  induction samples with
  | nil =>
    intro gs hr hg hb
    refine ⟨?_, ?_, ?_⟩ <;>
      simp [pass, rTotal, gTotal, bTotal, Nat.mod_eq_of_lt, hr, hg, hb]
  | cons c t ih =>
    intro gs hr hg hb
    have hpass : pass itR itG itB (c :: t) gs =
        pass itR itG itB t (sampleStep itR itG itB c gs) := rfl
    have h1 := sampleStep_r itR itG itB c gs y x hr
    have h2 := sampleStep_g itR itG itB c gs y x hg
    have h3 := sampleStep_b itR itG itB c gs y x hb
    have hr2 : (sampleStep itR itG itB c gs).r y x < U16_MOD := by
      rw [h1]; exact Nat.mod_lt _ (by norm_num [U16_MOD])
    have hg2 : (sampleStep itR itG itB c gs).g y x < U16_MOD := by
      rw [h2]; exact Nat.mod_lt _ (by norm_num [U16_MOD])
    have hb2 : (sampleStep itR itG itB c gs).b y x < U16_MOD := by
      rw [h3]; exact Nat.mod_lt _ (by norm_num [U16_MOD])
    obtain ⟨e1, e2, e3⟩ := ih (sampleStep itR itG itB c gs) hr2 hg2 hb2
    have ht1 : rTotal itR itG itB (c :: t) y x =
        rHits itR itG itB c y x + rTotal itR itG itB t y x := by
      rw [rTotal, rTotal, List.map_cons, List.sum_cons]
    have ht2 : gTotal itR itG itB (c :: t) y x =
        gHits itR itG itB c y x + gTotal itR itG itB t y x := by
      rw [gTotal, gTotal, List.map_cons, List.sum_cons]
    have ht3 : bTotal itR itG itB (c :: t) y x =
        bHits itR itG itB c y x + bTotal itR itG itB t y x := by
      rw [bTotal, bTotal, List.map_cons, List.sum_cons]
    refine ⟨?_, ?_, ?_⟩
    · rw [hpass, e1, h1, ht1, Nat.mod_add_mod]
      congr 1
      omega
    · rw [hpass, e2, h2, ht2, Nat.mod_add_mod]
      congr 1
      omega
    · rw [hpass, e3, h3, ht3, Nat.mod_add_mod]
      congr 1
      omega

/-- Per sample, green receives at most as many hits as red at every
pixel: green records a `take`-part of the same visited list when its
flag is set, and nothing otherwise. -/
theorem gHits_le_rHits (itR itG itB : ℕ) (c : Complex) (y x : ℕ) :
    gHits itR itG itB c y x ≤ rHits itR itG itB c y x := by
  rw [gHits, rHits]
  rcases ho : outcome itR itG itB c with _ | ⟨v, sg, sb⟩ <;> simp only [ho]
  · exact le_rfl
  · by_cases hsg : sg
    · rw [if_pos hsg, hitCount, hitCount]
      exact List.Sublist.countP_le _ (List.take_sublist itG v)
    · rw [if_neg hsg]
      exact Nat.zero_le _

/-- Per sample, blue receives at most as many hits as red at every pixel. -/
theorem bHits_le_rHits (itR itG itB : ℕ) (c : Complex) (y x : ℕ) :
    bHits itR itG itB c y x ≤ rHits itR itG itB c y x := by
  rw [bHits, rHits]
  rcases ho : outcome itR itG itB c with _ | ⟨v, sg, sb⟩ <;> simp only [ho]
  · exact le_rfl
  · by_cases hsb : sb
    · rw [if_pos hsb, hitCount, hitCount]
      exact List.Sublist.countP_le _ (List.take_sublist itB v)
    · rw [if_neg hsb]
      exact Nat.zero_le _

/-- Summed over a pass, green totals are bounded by red totals. -/
theorem gTotal_le_rTotal (itR itG itB : ℕ) (samples : List Complex) (y x : ℕ) :
    gTotal itR itG itB samples y x ≤ rTotal itR itG itB samples y x := by
  rw [gTotal, rTotal]
  exact List.sum_le_sum (fun c _ => gHits_le_rHits itR itG itB c y x)

/-- Summed over a pass, blue totals are bounded by red totals. -/
theorem bTotal_le_rTotal (itR itG itB : ℕ) (samples : List Complex) (y x : ℕ) :
    bTotal itR itG itB samples y x ≤ rTotal itR itG itB samples y x := by
  rw [bTotal, rTotal]
  exact List.sum_le_sum (fun c _ => bHits_le_rHits itR itG itB c y x)

end Buddhabrot

namespace Buddhabrot

/-- C1.  The source's viewport guard accepts the closed rectangle, so the
exact right edge `c.re = TOP_LEFT.re + COMPLEX_PLANE_VIEW_WIDTH = 33/20`
passes the test, and the division then yields exactly `SCREEN_WIDTH`:
`get_pixel` returns the out-of-range pixel `x = 2560` (the same happens in
`f64`: `1.65` passes the guard and `(1.65 - (-2.65)) / PIXEL_WIDTH`
evaluates to exactly `2560.0`).  Indexing `r[pixel.y][pixel.x]` with this
result is out of bounds, refuting the claimed guarantee
`0 ≤ x < SCREEN_WIDTH`. -/
theorem c1_get_pixel_right_edge_out_of_range :
    get_pixel { re := 33 / 20, im := 0 } =
      some { x := 2560, y := 720 } ∧ ¬ (2560 < SCREEN_WIDTH) := by
  constructor
  · rw [get_pixel, if_neg]
    · norm_num [TOP_LEFT, PIXEL_WIDTH, PIXEL_HEIGHT, COMPLEX_PLANE_VIEW_WIDTH,
        COMPLEX_PLANE_VIEW_HEIGHT, PAN_RIGHT, SCREEN_WIDTH, SCREEN_HEIGHT]
      exact ⟨rfl, rfl⟩
    · norm_num [TOP_LEFT, COMPLEX_PLANE_VIEW_WIDTH, COMPLEX_PLANE_VIEW_HEIGHT,
        PAN_RIGHT, SCREEN_WIDTH, SCREEN_HEIGHT]
  · norm_num [SCREEN_WIDTH]

/-- C7.  For every complex value strictly outside the closed viewport
rectangle (`re` outside `[left, left + width]` or `im` outside
`[top - height, top]`), `get_pixel` returns `none`. -/
theorem c7_outside_viewport_maps_to_none (c : Complex)
    (h : c.re < TOP_LEFT.re ∨ c.re > TOP_LEFT.re + COMPLEX_PLANE_VIEW_WIDTH ∨
      c.im > TOP_LEFT.im ∨ c.im < TOP_LEFT.im - COMPLEX_PLANE_VIEW_HEIGHT) :
    get_pixel c = none := by
  simp only [get_pixel, if_pos h]

/-- Witness for C7 at the concrete point `c = 100 + 0i` (right of the
viewport). -/
theorem c7_outside_viewport_maps_to_none_witness :
    ((100 : ℚ) > TOP_LEFT.re + COMPLEX_PLANE_VIEW_WIDTH) ∧
      get_pixel { re := 100, im := 0 } = none :=
  ⟨by norm_num [TOP_LEFT, COMPLEX_PLANE_VIEW_WIDTH, PAN_RIGHT],
    c7_outside_viewport_maps_to_none { re := 100, im := 0 }
      (Or.inr (Or.inl (by norm_num [TOP_LEFT, COMPLEX_PLANE_VIEW_WIDTH, PAN_RIGHT])))⟩

/-- C2 (amended).  When a sample escapes, `generate` commits its visited
list with the recorded flags, and `should_green` / `should_blue` hold
exactly when the 1-based escape length `L = v.length` satisfies
`L ≤ cap + 1` — one more than the claimed `L ≤ cap`, because the flag is
only cleared once the 0-based loop counter strictly exceeds the cap.
(Red always records the full visited list of an escaped trajectory, so
red contributes iff the trajectory escapes at all, i.e. iff `L ≤ itR`.)
With caps R=50, G=40, B=30 and L = 10, 35, 45, 60 the contributing sets
are still {R,G,B}, {R,G}, {R}, {} as the spec's example states; the claim
only fails on the boundary `L = cap + 1`. -/
theorem c2_channel_eligibility_off_by_one (itR itG itB : ℕ) (c : Complex)
    (v : List Complex) (sg sb : Bool) (gs : Grids)
    (h : outcome itR itG itB c = some (v, sg, sb)) :
    sampleStep itR itG itB c gs = commit itG itB v sg sb gs ∧
      (sg = true ↔ v.length ≤ itG + 1) ∧ (sb = true ↔ v.length ≤ itB + 1) := by
  rw [outcome] at h
  have hflags := genLoopOut_flags itG itB c itR 0 { re := 0, im := 0 } [] true true v sg sb
    (by simp) (by simp) rfl h
  refine ⟨?_, hflags.1, hflags.2.1⟩
  rw [sampleStep, genLoop_eq_outcome, h]

/-- Witness for C2 at the sample `c = -21/10` with caps R=50, G=40, B=30:
it escapes at `L = 1` and both flags are set (`1 ≤ 41`, `1 ≤ 31`). -/
theorem c2_channel_eligibility_off_by_one_witness :
    outcome 50 40 30 { re := -21/10, im := 0 } =
        some ([{ re := -21/10, im := 0 }], true, true) ∧
      (sampleStep 50 40 30 { re := -21/10, im := 0 } zeroGrids =
          commit 40 30 [{ re := -21/10, im := 0 }] true true zeroGrids ∧
        (true = true ↔ ([{ re := -21/10, im := 0 }] : List Complex).length ≤ 40 + 1) ∧
        (true = true ↔ ([{ re := -21/10, im := 0 }] : List Complex).length ≤ 30 + 1)) := by
  have houtcome : outcome 50 40 30 { re := -21/10, im := 0 } =
      some ([{ re := -21/10, im := 0 }], true, true) := by
    show genLoopOut 40 30 _ _ _ _ _ _ (49 + 1) = _
    rw [genLoopOut_step]
    norm_num [Complex.square, Complex.mul, Complex.add, Complex.abssq]
  exact ⟨houtcome,
    c2_channel_eligibility_off_by_one 50 40 30 { re := -21/10, im := 0 } _ _ _
      zeroGrids houtcome⟩

/-- C2 counterexample.  With caps `R=50, G=1, B=1` the sample `c = 1 + i`
escapes at iteration `L = 2` with `should_green` still set, and the green
channel records the first visited point: its counter at the mapped pixel
`(x, y) = (2173, 124)` ends at `1`, although `L ≤ capG` fails (`2 ≤ 1` is
false) — refuting "contributes to channel i iff `L ≤ capᵢ`". -/
theorem c2_counterexample_boundary_contribution :
    outcome 50 1 1 { re := 1, im := 1 } =
        some ([{ re := 1, im := 1 }, { re := 1, im := 3 }], true, true) ∧
      (sampleStep 50 1 1 { re := 1, im := 1 } zeroGrids).g 124 2173 = 1 ∧
      ¬((2 : ℕ) ≤ 1) := by
  have hpix : get_pixel { re := 1, im := 1 } = some { x := 2173, y := 124 } := by
    rw [get_pixel, if_neg]
    · norm_num [TOP_LEFT, PIXEL_WIDTH, PIXEL_HEIGHT, COMPLEX_PLANE_VIEW_WIDTH,
        COMPLEX_PLANE_VIEW_HEIGHT, PAN_RIGHT, SCREEN_WIDTH, SCREEN_HEIGHT]
      exact ⟨rfl, rfl⟩
    · norm_num [TOP_LEFT, COMPLEX_PLANE_VIEW_WIDTH, COMPLEX_PLANE_VIEW_HEIGHT,
        PAN_RIGHT, SCREEN_WIDTH, SCREEN_HEIGHT]
  have houtcome : outcome 50 1 1 { re := 1, im := 1 } =
      some ([{ re := 1, im := 1 }, { re := 1, im := 3 }], true, true) := by
    have e1 : (Complex.mk 0 0).square.add { re := 1, im := 1 } = { re := 1, im := 1 } := by
      norm_num [Complex.square, Complex.mul, Complex.add]
    have e2 : (Complex.mk 1 1).square.add { re := 1, im := 1 } = { re := 1, im := 3 } := by
      norm_num [Complex.square, Complex.mul, Complex.add]
    have ha1 : ¬((Complex.mk 1 1).abssq > 4) := by norm_num [Complex.abssq]
    have ha2 : (Complex.mk 1 3).abssq > 4 := by norm_num [Complex.abssq]
    show genLoopOut 1 1 _ _ _ _ _ _ (49 + 1) = _
    rw [genLoopOut_step, e1, if_neg ha1]
    norm_num
    rw [show (49 : ℕ) = 48 + 1 from rfl, genLoopOut_step, e2, if_pos ha2]
    simp
  refine ⟨houtcome, ?_, by omega⟩
  have hsample : sampleStep 50 1 1 { re := 1, im := 1 } zeroGrids =
      commit 1 1 [{ re := 1, im := 1 }, { re := 1, im := 3 }] true true zeroGrids := by
    rw [outcome] at houtcome
    rw [sampleStep, genLoop_eq_outcome, houtcome]
  rw [hsample, commit]
  simp only [List.take_succ_cons, List.take_zero]
  simp [addVisited, hpix, fetch_add, zeroGrids, U16_MOD]

/-- C3.  After normalization: a pixel holding the maximum count `M > 0`
holds exactly `255`; and if all counters are zero the normalized output
is all zeros — the `max = 0` case produces `0` (in the source the
division `0.0 / 0.0` is `NaN`, which the `as u16` cast maps to `0`)
rather than any division-by-zero failure. -/
theorem c3_normalize_max_pixel_and_zero_channel (h w : ℕ) (g : BuddhabrotChannel)
    (y x : ℕ) (hy : y < h) (hx : x < w) :
    (0 < chMax h w g → g y x = chMax h w g → normalize h w g y x = 255) ∧
      ((∀ y' x', y' < h → x' < w → g y' x' = 0) → normalize h w g y x = 0) := by
  constructor
  · intro hM hmax
    rw [normalize, if_pos ⟨hy, hx⟩, hmax, normValue,
      if_neg (Nat.pos_iff_ne_zero.mp hM)]
    have hMne : (chMax h w g : ℚ) ≠ 0 := Nat.cast_ne_zero.mpr (Nat.pos_iff_ne_zero.mp hM)
    rw [div_self hMne]
    norm_num
    rfl
  · intro hz
    rw [normalize, if_pos ⟨hy, hx⟩, chMax_zero h w g hz, normValue,
      if_pos rfl, if_pos (hz y x hy hx)]

/-- Witness for C3: on the `1 × 2` channel `[5, 3]` the maximum pixel
normalizes to `255`; on the all-zero channel the output is `0`. -/
theorem c3_normalize_max_pixel_and_zero_channel_witness :
    (0 < chMax 1 2 (fun _ x => if x = 0 then 5 else 3) ∧
        (fun (_ x : ℕ) => if x = 0 then 5 else 3) 0 0 =
          chMax 1 2 (fun _ x => if x = 0 then 5 else 3) ∧
        normalize 1 2 (fun _ x => if x = 0 then 5 else 3) 0 0 = 255) ∧
      ((∀ y' x', y' < 1 → x' < 2 → zeroGrids.r y' x' = 0) ∧
        normalize 1 2 zeroGrids.r 0 0 = 0) :=
  ⟨⟨by decide, by decide,
      (c3_normalize_max_pixel_and_zero_channel 1 2 _ 0 0 (by decide) (by decide)).1
        (by decide) (by decide)⟩,
    ⟨fun _ _ _ _ => rfl,
      (c3_normalize_max_pixel_and_zero_channel 1 2 zeroGrids.r 0 0
          (by decide) (by decide)).2 (fun _ _ _ _ => rfl)⟩⟩

/-- C4 (amended).  For a channel with maximum `M > 0`, normalization
replaces every counter `v` by the TRUNCATION `⌊v / M * 255⌋` — Rust's
`as u16` cast truncates toward zero, it does not round to nearest — and
every normalized value lies in `[0, 255]`. -/
theorem c4_normalize_truncates_into_range (h w : ℕ) (g : BuddhabrotChannel)
    (y x : ℕ) (hy : y < h) (hx : x < w) (hM : 0 < chMax h w g) :
    normalize h w g y x = (⌊((g y x : ℚ) / (chMax h w g : ℚ)) * 255⌋).toNat ∧
      normalize h w g y x ≤ 255 := by
  have hvle : g y x ≤ chMax h w g := chMax_ge h w g y x hy hx
  have hMpos : (0 : ℚ) < (chMax h w g : ℚ) := by exact_mod_cast hM
  have hq : ((g y x : ℚ) / (chMax h w g : ℚ)) * 255 ≤ 255 := by
    have h1 : ((g y x : ℚ) / (chMax h w g : ℚ)) ≤ 1 := by
      rw [div_le_one hMpos]
      exact_mod_cast hvle
    calc ((g y x : ℚ) / (chMax h w g : ℚ)) * 255 ≤ 1 * 255 :=
          mul_le_mul_of_nonneg_right h1 (by norm_num)
      _ = 255 := by norm_num
  have hfl : ⌊((g y x : ℚ) / (chMax h w g : ℚ)) * 255⌋ ≤ 255 := by
    calc ⌊((g y x : ℚ) / (chMax h w g : ℚ)) * 255⌋ ≤ ⌊(255 : ℚ)⌋ := Int.floor_le_floor hq
      _ = 255 := by norm_num
  have htn : (⌊((g y x : ℚ) / (chMax h w g : ℚ)) * 255⌋).toNat ≤ 255 :=
    Int.toNat_le.mpr (le_trans hfl (by norm_num))
  rw [normalize, if_pos ⟨hy, hx⟩, normValue, if_neg (Nat.pos_iff_ne_zero.mp hM)]
  exact ⟨Nat.min_eq_left (le_trans htn (by norm_num)),
    le_trans (Nat.min_le_left _ _) htn⟩

/-- Witness for C4 on the `1 × 1` channel `[1]`: `M = 1`, the cell
normalizes to `⌊1/1*255⌋ = 255 ≤ 255`. -/
theorem c4_normalize_truncates_into_range_witness :
    ((0 : ℕ) < 1 ∧ (0 : ℕ) < 1 ∧ 0 < chMax 1 1 (fun _ _ => 1)) ∧
      (normalize 1 1 (fun _ _ => 1) 0 0 =
          (⌊(((fun (_ _ : ℕ) => 1) 0 0 : ℚ) / (chMax 1 1 (fun _ _ => 1) : ℚ)) * 255⌋).toNat ∧
        normalize 1 1 (fun _ _ => 1) 0 0 ≤ 255) :=
  ⟨⟨by decide, by decide, by decide⟩,
    c4_normalize_truncates_into_range 1 1 (fun _ _ => 1) 0 0
      (by decide) (by decide) (by decide)⟩

/-- C4 counterexample.  On the `1 × 2` channel `[1, 2]` (maximum `2`) the
source normalizes the count `1` to `⌊1/2 * 255⌋ = ⌊127.5⌋ = 127`, while
the claim's `round(1/2 * 255) = round(127.5) = 128`: the rescaling
truncates, it does not round. -/
theorem c4_counterexample_truncation_not_rounding :
    normalize 1 2 (fun _ x => if x = 0 then 1 else 2) 0 0 = 127 ∧
      round ((1 : ℚ) / 2 * 255) = 128 ∧ (127 : ℕ) ≠ 128 := by
  refine ⟨?_, by rw [round_eq]; norm_num, by omega⟩
  have hM : chMax 1 2 (fun _ x => if x = 0 then 1 else 2) = 2 := by decide
  rw [normalize, if_pos ⟨by decide, by decide⟩, hM]
  norm_num [normValue]
  rfl

/-- C6.  A sample whose trajectory never escapes within the red cap (every
iterate's squared magnitude stays at most `4.0`) makes no increment at
all: all three histogram grids are returned exactly as they were. -/
theorem c6_non_escaping_sample_no_increments (itR itG itB : ℕ) (c : Complex) (gs : Grids)
    (h : ∀ m, m < itR → (zIter c (m + 1)).abssq ≤ 4) :
    sampleStep itR itG itB c gs = gs := by
  rw [sampleStep, genLoop_eq_outcome]
  have hnone : genLoopOut itG itB c { re := 0, im := 0 } [] true true 0 itR = none :=
    genLoopOut_none itG itB c itR 0 [] true true (fun m _ hm2 => h m (by omega))
  rw [hnone]

/-- Witness for C6: the sample `c = 0` never escapes (cap 5), and
processing it leaves the zero grids unchanged. -/
theorem c6_non_escaping_sample_no_increments_witness :
    (∀ m, m < 5 → (zIter { re := 0, im := 0 } (m + 1)).abssq ≤ 4) ∧
      sampleStep 5 5 5 { re := 0, im := 0 } zeroGrids = zeroGrids :=
  ⟨fun m _ => by rw [zIter_origin]; norm_num [Complex.abssq],
    c6_non_escaping_sample_no_increments 5 5 5 { re := 0, im := 0 } zeroGrids
      (fun m _ => by rw [zIter_origin]; norm_num [Complex.abssq])⟩

/-- C5 (amended).  `fetch_add` is atomic, so a concurrent run of `N`
workers each incrementing the same counter `K` times is a sequential
execution of some schedule of the `N·K` increments; every such schedule
ends at `(N·K) % 2^16`, independent of the interleaving — no increment is
lost, but a total at or above `2^16` wraps (the claim's "exactly N×K"
holds only while `N·K < 65536`; see C9). -/
theorem c5_concurrent_increments_wrap (N K : ℕ) (s : List ℕ)
    (hmem : ∀ wk ∈ s, wk < N) (hcnt : ∀ wk, wk < N → s.count wk = K) :
    runSchedule s 0 = (N * K) % U16_MOD := by
  rw [runSchedule_eq s 0 (by norm_num [U16_MOD]),
    schedule_length N K s hmem hcnt, Nat.zero_add]

/-- Witness for C5: two workers, one increment each, schedule `[0, 1]` —
the counter ends at `(2·1) % 2^16 = 2`. -/
theorem c5_concurrent_increments_wrap_witness :
    (∀ wk ∈ ([0, 1] : List ℕ), wk < 2) ∧ (∀ wk, wk < 2 → ([0, 1] : List ℕ).count wk = 1) ∧
      runSchedule [0, 1] 0 = (2 * 1) % U16_MOD :=
  ⟨by decide, by decide,
    c5_concurrent_increments_wrap 2 1 [0, 1] (by decide) (by decide)⟩

/-- C5 counterexample.  Two workers each incrementing the same `AtomicU16`
counter `32768` times is `N·K = 65536` increments, yet the final counter
value is `0`, not `N·K`: "the final counter value is exactly N×K" fails
once the total reaches `2^16`. -/
theorem c5_counterexample_wraparound :
    (∀ wk, wk < 2 →
        (List.replicate 32768 0 ++ List.replicate 32768 1).count wk = 32768) ∧
      runSchedule (List.replicate 32768 0 ++ List.replicate 32768 1) 0 = 0 ∧
      (0 : ℕ) ≠ 2 * 32768 := by
  refine ⟨?_, ?_, by omega⟩
  · intro wk hwk
    rw [List.count_append, List.count_replicate, List.count_replicate]
    interval_cases wk
    · norm_num
    · norm_num
  · have h := runSchedule_eq (List.replicate 32768 0 ++ List.replicate 32768 1) 0
      (by norm_num [U16_MOD])
    refine h.trans ?_
    simp only [List.length_append, List.length_replicate]
    norm_num [U16_MOD]

/-- C9.  Histogram counters are 16-bit (`AtomicU16`), and `fetch_add`
performs wrapping addition modulo `2^16` with no overflow check: `n`
increments of one counter starting from zero leave `n % 65536`, which for
`n > 65535` silently differs from the true count `n`. -/
theorem c9_counter_wraps_mod_u16 (n : ℕ) (h : 65535 < n) :
    runSchedule (List.replicate n 0) 0 = n % U16_MOD ∧ n % U16_MOD ≠ n := by
  constructor
  · rw [runSchedule_eq _ 0 (by norm_num [U16_MOD]), List.length_replicate, Nat.zero_add]
  · have hlt : n % U16_MOD < U16_MOD := Nat.mod_lt _ (by norm_num [U16_MOD])
    rw [U16_MOD] at hlt ⊢
    omega

/-- Witness for C9 at `n = 65536` increments: the counter wraps to `0`. -/
theorem c9_counter_wraps_mod_u16_witness :
    65535 < 65536 ∧
      (runSchedule (List.replicate 65536 0) 0 = 65536 % U16_MOD ∧
        65536 % U16_MOD ≠ 65536) :=
  ⟨by omega, c9_counter_wraps_mod_u16 65536 (by omega)⟩

/-- C8.  For the sample `c = 0` with exponent 2 the iteration is stuck at
the origin: every iterate has squared magnitude `0` (never above `4.0`),
so under every iteration cap the sample never escapes — `outcome` is
`none`. -/
theorem c8_origin_never_escapes :
    (∀ n, (zIter { re := 0, im := 0 } n).abssq = 0) ∧
      (∀ itR itG itB, outcome itR itG itB { re := 0, im := 0 } = none) := by
  constructor
  · intro n; rw [zIter_origin]; norm_num [Complex.abssq]
  · intro itR itG itB
    rw [outcome]
    exact genLoopOut_none itG itB _ itR 0 [] true true
      (fun m _ _ => by rw [zIter_origin]; norm_num [Complex.abssq])


/-- C10.  Provided no counter wraps (the red pre-wrap total at the pixel
stays below `2^16`), at the end of an accumulation pass from zero grids
the green and blue counters are pointwise at most the red counter: green
and blue record `take`-prefixes of the same visited lists that red
records in full, so every green/blue increment is accompanied by a red
increment at the same pixel. -/
theorem c10_green_blue_bounded_by_red (itR itG itB : ℕ) (samples : List Complex)
    (y x : ℕ) (hno : rTotal itR itG itB samples y x < U16_MOD) :
    (pass itR itG itB samples zeroGrids).g y x ≤
        (pass itR itG itB samples zeroGrids).r y x ∧
      (pass itR itG itB samples zeroGrids).b y x ≤
        (pass itR itG itB samples zeroGrids).r y x := by
  have hzr : zeroGrids.r y x < U16_MOD := by norm_num [zeroGrids, U16_MOD]
  have hzg : zeroGrids.g y x < U16_MOD := by norm_num [zeroGrids, U16_MOD]
  have hzb : zeroGrids.b y x < U16_MOD := by norm_num [zeroGrids, U16_MOD]
  obtain ⟨e1, e2, e3⟩ := pass_apply itR itG itB y x samples zeroGrids hzr hzg hzb
  have hgle := gTotal_le_rTotal itR itG itB samples y x
  have hble := bTotal_le_rTotal itR itG itB samples y x
  have h0r : zeroGrids.r y x = 0 := rfl
  have h0g : zeroGrids.g y x = 0 := rfl
  have h0b : zeroGrids.b y x = 0 := rfl
  rw [e1, e2, e3, h0r, h0g, h0b, Nat.zero_add, Nat.zero_add, Nat.zero_add,
    Nat.mod_eq_of_lt hno, Nat.mod_eq_of_lt (lt_of_le_of_lt hgle hno),
    Nat.mod_eq_of_lt (lt_of_le_of_lt hble hno)]
  exact ⟨hgle, hble⟩

/-- Witness for C10 on the empty pass (red total `0 < 2^16`). -/
theorem c10_green_blue_bounded_by_red_witness :
    rTotal 5 4 3 [] 0 0 < U16_MOD ∧
      ((pass 5 4 3 [] zeroGrids).g 0 0 ≤ (pass 5 4 3 [] zeroGrids).r 0 0 ∧
        (pass 5 4 3 [] zeroGrids).b 0 0 ≤ (pass 5 4 3 [] zeroGrids).r 0 0) :=
  ⟨by norm_num [rTotal, U16_MOD],
    c10_green_blue_bounded_by_red 5 4 3 [] 0 0 (by norm_num [rTotal, U16_MOD])⟩

end Buddhabrot
